import Mathlib

/-!
Verification of the geographic POI clustering engine
(app/modules/poi_ingestion/poi_cluster_engine.py).

The engine is embedded shallowly: the hand-written repository code
(the haversine formula, the strategy chain of cluster_pois, the
cluster assembler build_cluster_output and the breadth-first
neighbor-chain clusterer cluster_with_knn_distance) is translated
definition by definition.  The two external library clusterers
(HDBSCAN and sklearn's DBSCAN) and the kneighbors query are not code
of this repository; they enter as oracle parameters, and where a
claim depends on their behaviour the documented library semantics is
modelled separately and explicitly.
-/

namespace PoiClusterEngine

/-- A point of interest: the record the clustering engine consumes
(the engine reads only lat and lng; id and name are carried through). -/
structure Poi where
  id : String
  name : String
  lat : ℝ
  lng : ℝ

/-- An output cluster: a cluster id of the form "cluster_n" plus the
ordered member list. -/
structure Cluster where
  cluster_id : String
  pois : List Poi

/- ----------------------------------------------------------------
   build_cluster_output
   ---------------------------------------------------------------- -/

/-- One step of the python dict update
clusters.setdefault(int(label), []).append(poi): the dict is an
insertion-ordered association list; the first entry with the key is
extended, a missing key is appended at the end. -/
def insertPoi : List (Int × List Poi) → Int → Poi → List (Int × List Poi)
  | [], k, p => [(k, [p])]
  | (k', ps) :: rest, k, p =>
    if k' = k then (k', ps ++ [p]) :: rest else (k', ps) :: insertPoi rest k p

/-- Reading clusters[label] from the association list (the first
matching entry, as in a python dict). -/
def lookupPois : List (Int × List Poi) → Int → List Poi
  | [], _ => []
  | (k', ps) :: rest, k => if k' = k then ps else lookupPois rest k

/-- The first loop of build_cluster_output: distribute the
(label, poi) pairs into the label-keyed dict and the noise list. -/
def collectClusters (include_noise : Bool) :
    List (Int × Poi) → List (Int × List Poi) → List Poi →
      List (Int × List Poi) × List Poi
  | [], m, ns => (m, ns)
  | lp :: rest, m, ns =>
    if lp.1 = -1 ∧ include_noise = true then
      collectClusters include_noise rest m (ns ++ [lp.2])
    else
      collectClusters include_noise rest (insertPoi m lp.1 lp.2) ns

/-- The output loop of build_cluster_output: name the member lists
cluster_num, cluster_num+1, ... in order. -/
def nameClusters : Nat → List (List Poi) → List Cluster
  | _, [] => []
  | num, ps :: rest =>
    { cluster_id := "cluster_" ++ toString num, pois := ps } :: nameClusters (num + 1) rest

/-- build_cluster_output: group the labelled pois (noise label -1 set
aside when include_noise), emit the groups in ascending label order as
cluster_1, cluster_2, ..., and append the noise group, if any, as one
trailing cluster. -/
def build_cluster_output (labels : List Int) (pois : List Poi)
    (include_noise : Bool) : List Cluster :=
  let pairs := labels.zip pois
  let cm := collectClusters include_noise pairs [] []
  let keys := List.insertionSort (fun a b => a ≤ b) (cm.1.map Prod.fst)
  let regular := keys.map (fun k => lookupPois cm.1 k)
  nameClusters 1 (regular ++ if cm.2.isEmpty then [] else [cm.2])

/- Lemmas about the association list. -/

theorem lookupPois_nil (k : Int) : lookupPois [] k = [] := rfl

theorem lookupPois_insertPoi (m : List (Int × List Poi)) (k : Int) (p : Poi) (k' : Int) :
    lookupPois (insertPoi m k p) k' =
      if k' = k then lookupPois m k ++ [p] else lookupPois m k' := by
  induction m with
  | nil =>
    by_cases h : k' = k
    · simp [insertPoi, lookupPois, h]
    · simp [insertPoi, lookupPois, h, Ne.symm h]
  | cons e rest ih =>
    obtain ⟨ke, pse⟩ := e
    by_cases hek : ke = k
    · subst hek
      by_cases h : k' = ke
      · simp [insertPoi, lookupPois, h]
      · simp [insertPoi, lookupPois, h, Ne.symm h]
    · by_cases h : ke = k'
      · subst h
        simp [insertPoi, lookupPois, hek, Ne.symm hek]
      · simp [insertPoi, lookupPois, hek, h, ih]

theorem keys_insertPoi (m : List (Int × List Poi)) (k : Int) (p : Poi) :
    (insertPoi m k p).map Prod.fst =
      if k ∈ m.map Prod.fst then m.map Prod.fst else m.map Prod.fst ++ [k] := by
  induction m with
  | nil => simp [insertPoi]
  | cons e rest ih =>
    obtain ⟨ke, pse⟩ := e
    by_cases hek : ke = k
    · subst hek
      simp [insertPoi]
    · have : (k ∈ ((ke, pse) :: rest).map Prod.fst) ↔ k ∈ rest.map Prod.fst := by
        simp [Ne.symm hek]
      by_cases hmem : k ∈ rest.map Prod.fst
      · simp [insertPoi, hek, Ne.symm hek, ih, hmem, this]
      · simp [insertPoi, hek, Ne.symm hek, ih, hmem, this]

theorem keys_insertPoi_nodup (m : List (Int × List Poi)) (k : Int) (p : Poi)
    (h : (m.map Prod.fst).Nodup) : ((insertPoi m k p).map Prod.fst).Nodup := by
  rw [keys_insertPoi]
  by_cases hmem : k ∈ m.map Prod.fst
  · simpa [hmem] using h
  · simp only [hmem, if_false]
    rw [List.nodup_append]
    exact ⟨h, List.nodup_singleton k, by simpa using hmem⟩

/- Lemmas about collectClusters. -/

theorem collectClusters_snd (b : Bool) (pairs : List (Int × Poi))
    (m : List (Int × List Poi)) (ns : List Poi) :
    (collectClusters b pairs m ns).2 =
      ns ++ (pairs.filter (fun lp => lp.1 == -1 && b)).map Prod.snd := by
  induction pairs generalizing m ns with
  | nil => simp [collectClusters]
  | cons lp rest ih =>
    by_cases h : lp.1 = -1 ∧ b = true
    · obtain ⟨h1, h2⟩ := h
      subst h2
      simp [collectClusters, h1, ih]
    · have hb : (lp.1 == -1 && b) = false := by
        cases b with
        | false => simp
        | true =>
          have hne : ¬ lp.1 = -1 := fun hc => h ⟨hc, rfl⟩
          simp [hne]
      simp [collectClusters, h, ih, hb]

theorem collectClusters_lookup (b : Bool) (pairs : List (Int × Poi))
    (m : List (Int × List Poi)) (ns : List Poi) (k : Int) :
    lookupPois (collectClusters b pairs m ns).1 k =
      lookupPois m k ++
        (pairs.filter (fun lp => lp.1 == k && !(lp.1 == -1 && b))).map Prod.snd := by
  induction pairs generalizing m ns with
  | nil => simp [collectClusters]
  | cons lp rest ih =>
    by_cases h : lp.1 = -1 ∧ b = true
    · simp only [collectClusters, if_pos h]
      obtain ⟨h1, h2⟩ := h
      subst h2
      have hpa : (lp.1 == k && !(lp.1 == -1 && true)) = false := by
        simp [h1]
      rw [ih, List.filter_cons, hpa]
      simp
    · simp only [collectClusters, if_neg h]
      have hnb : (lp.1 == -1 && b) = false := by
        cases b with
        | false => simp
        | true =>
          have hne : ¬ lp.1 = -1 := fun hc => h ⟨hc, rfl⟩
          simp [hne]
      rw [ih, lookupPois_insertPoi, List.filter_cons]
      by_cases hk : lp.1 = k
      · have hpa : (lp.1 == k && !(lp.1 == -1 && b)) = true := by
          cases b with
          | false => simp [hk]
          | true =>
            have hne : ¬ k = -1 := fun hc => h ⟨hk.trans hc, rfl⟩
            simp [hk, hne]
        rw [hpa]
        simp [hk]
      · have hpa : (lp.1 == k && !(lp.1 == -1 && b)) = false := by
          simp [hk]
        rw [hpa]
        simp [Ne.symm hk]

theorem collectClusters_keys_mem (b : Bool) (pairs : List (Int × Poi))
    (m : List (Int × List Poi)) (ns : List Poi) (k : Int) :
    k ∈ (collectClusters b pairs m ns).1.map Prod.fst ↔
      (k ∈ m.map Prod.fst ∨ ∃ lp ∈ pairs, lp.1 = k ∧ ¬(lp.1 = -1 ∧ b = true)) := by
  induction pairs generalizing m ns with
  | nil => simp [collectClusters]
  | cons lp rest ih =>
    by_cases h : lp.1 = -1 ∧ b = true
    · simp only [collectClusters, if_pos h]
      rw [ih]
      constructor
      · rintro (hm | ⟨lp', hlp', hk, hnb⟩)
        · exact Or.inl hm
        · exact Or.inr ⟨lp', List.mem_cons_of_mem _ hlp', hk, hnb⟩
      · rintro (hm | ⟨lp', hlp', hk, hnb⟩)
        · exact Or.inl hm
        · rcases List.mem_cons.mp hlp' with heq | hmem
          · exact absurd h (heq ▸ hnb)
          · exact Or.inr ⟨lp', hmem, hk, hnb⟩
    · simp only [collectClusters, if_neg h]
      rw [ih]
      have hkeys : (k ∈ (insertPoi m lp.1 lp.2).map Prod.fst) ↔
          (k ∈ m.map Prod.fst ∨ k = lp.1) := by
        rw [keys_insertPoi]
        by_cases hmem : lp.1 ∈ m.map Prod.fst
        · simp only [hmem, if_true]
          constructor
          · exact fun hm => Or.inl hm
          · rintro (hm | rfl)
            · exact hm
            · exact hmem
        · simp [hmem]
      rw [hkeys]
      constructor
      · rintro ((hm | rfl) | ⟨lp', hlp', hk, hnb⟩)
        · exact Or.inl hm
        · exact Or.inr ⟨lp, List.mem_cons_self _ _, rfl, h⟩
        · exact Or.inr ⟨lp', List.mem_cons_of_mem _ hlp', hk, hnb⟩
      · rintro (hm | ⟨lp', hlp', hk, hnb⟩)
        · exact Or.inl (Or.inl hm)
        · rcases List.mem_cons.mp hlp' with heq | hmem
          · exact Or.inl (Or.inr (by rw [← heq, hk]))
          · exact Or.inr ⟨lp', hmem, hk, hnb⟩

theorem collectClusters_keys_nodup (b : Bool) (pairs : List (Int × Poi))
    (m : List (Int × List Poi)) (ns : List Poi)
    (h : (m.map Prod.fst).Nodup) :
    ((collectClusters b pairs m ns).1.map Prod.fst).Nodup := by
  induction pairs generalizing m ns with
  | nil => simpa [collectClusters] using h
  | cons lp rest ih =>
    by_cases hn : lp.1 = -1 ∧ b = true
    · simp only [collectClusters, if_pos hn]
      exact ih _ _ h
    · simp only [collectClusters, if_neg hn]
      exact ih _ _ (keys_insertPoi_nodup _ _ _ h)

/- Lemmas about nameClusters. -/

theorem nameClusters_map_pois (s : Nat) (xs : List (List Poi)) :
    (nameClusters s xs).map Cluster.pois = xs := by
  induction xs generalizing s with
  | nil => simp [nameClusters]
  | cons x xs ih => simp [nameClusters, ih]

theorem nameClusters_length (s : Nat) (xs : List (List Poi)) :
    (nameClusters s xs).length = xs.length := by
  induction xs generalizing s with
  | nil => simp [nameClusters]
  | cons x xs ih => simp [nameClusters, ih]

theorem nameClusters_map_id (s : Nat) (xs : List (List Poi)) :
    (nameClusters s xs).map Cluster.cluster_id =
      (List.range xs.length).map (fun j => "cluster_" ++ toString (s + j)) := by
  induction xs generalizing s with
  | nil => simp [nameClusters]
  | cons x xs ih =>
    rw [List.length_cons, List.range_succ_eq_map]
    simp only [nameClusters, List.map_cons, List.map_map]
    refine congrArg₂ List.cons (by simp) ?_
    rw [ih (s + 1)]
    have harith : ((fun j => "cluster_" ++ toString (s + j)) ∘ Nat.succ) =
        (fun j => "cluster_" ++ toString (s + 1 + j)) := by
      funext j
      simp only [Function.comp_apply]
      have hsj : s + Nat.succ j = s + 1 + j := by omega
      rw [hsj]
    rw [harith]

/-- Distributing the pairs of a list over the distinct keys they carry
(plus the noise filter) is a permutation of the list: the heart of the
partition invariant. -/
theorem perm_buckets (b : Bool) (keys : List Int) (pairs : List (Int × Poi))
    (hnd : keys.Nodup)
    (hcov : ∀ lp ∈ pairs, ¬(lp.1 = -1 ∧ b = true) → lp.1 ∈ keys)
    (hkeys : ∀ k ∈ keys, ¬(k = -1 ∧ b = true)) :
    ((keys.map (fun k =>
        (pairs.filter (fun lp => lp.1 == k && !(lp.1 == -1 && b))).map Prod.snd)).flatten
      ++ (pairs.filter (fun lp => lp.1 == -1 && b)).map Prod.snd).Perm
      (pairs.map Prod.snd) := by
  induction keys generalizing pairs with
  | nil =>
    have hall : pairs.filter (fun lp => lp.1 == -1 && b) = pairs := by
      apply List.filter_eq_self.mpr
      intro lp hlp
      by_contra hfalse
      have hkept : ¬(lp.1 = -1 ∧ b = true) := by
        intro ⟨h1, h2⟩
        exact hfalse (by simp [h1, h2])
      exact absurd (hcov lp hlp hkept) (List.not_mem_nil _)
    simp [hall]
  | cons k ks ih =>
    have hknotnoise : ¬(k = -1 ∧ b = true) := hkeys k (List.mem_cons_self _ _)
    -- the bucket of the head key collects exactly the pairs labelled k
    have hbk : pairs.filter (fun lp => lp.1 == k && !(lp.1 == -1 && b)) =
        pairs.filter (fun lp => lp.1 == k) := by
      apply List.filter_congr
      intro lp _
      by_cases hk : lp.1 = k
      · cases hb : b with
        | false => simp [hk]
        | true =>
          have hkne : ¬ k = -1 := fun hc => hknotnoise ⟨hc, hb⟩
          simp [hk, hkne]
      · simp [hk]
    -- the remaining keys see only the pairs not labelled k
    set rest := pairs.filter (fun lp => !(lp.1 == k)) with hrest
    have hbuckets : ∀ k' ∈ ks,
        pairs.filter (fun lp => lp.1 == k' && !(lp.1 == -1 && b)) =
          rest.filter (fun lp => lp.1 == k' && !(lp.1 == -1 && b)) := by
      intro k' hk'
      have hkk' : k ≠ k' := fun h => (List.nodup_cons.mp hnd).1 (h ▸ hk')
      rw [hrest, List.filter_filter]
      apply List.filter_congr
      intro lp _
      by_cases hlp : lp.1 = k'
      · simp [hlp, Ne.symm hkk']
      · simp [hlp]
    have hnoise : pairs.filter (fun lp => lp.1 == -1 && b) =
        rest.filter (fun lp => lp.1 == -1 && b) := by
      rw [hrest, List.filter_filter]
      apply List.filter_congr
      intro lp _
      by_cases hlp : lp.1 = -1
      · cases hb : b with
        | false => simp [hlp]
        | true =>
          have hkne : ¬ ((-1 : Int) = k) := fun hc => hknotnoise ⟨hc.symm, hb⟩
          simp [hlp, hkne]
      · simp [hlp]
    have hih := ih rest (List.nodup_cons.mp hnd).2
      (by
        intro lp hlp hkept
        have hmem : lp ∈ pairs := List.mem_of_mem_filter hlp
        have hne : ¬(lp.1 == k) = true := by
          have := List.of_mem_filter hlp
          simpa using this
        have : lp.1 ∈ k :: ks := hcov lp hmem hkept
        rcases List.mem_cons.mp this with heq | hmem'
        · exact absurd (by simp [heq]) hne
        · exact hmem')
      (fun k' hk' => hkeys k' (List.mem_cons_of_mem _ hk'))
    rw [List.map_cons, List.flatten_cons, hbk, hnoise]
    have hmapeq : (ks.map (fun k' =>
        (pairs.filter (fun lp => lp.1 == k' && !(lp.1 == -1 && b))).map Prod.snd)) =
        (ks.map (fun k' =>
          (rest.filter (fun lp => lp.1 == k' && !(lp.1 == -1 && b))).map Prod.snd)) := by
      apply List.map_congr_left
      intro k' hk'
      rw [hbuckets k' hk']
    rw [hmapeq, List.append_assoc]
    -- assemble: head bucket ++ (rest of the partition) ~ pairs
    have hsplit : ((pairs.filter (fun lp => lp.1 == k)).map Prod.snd ++
        (rest.map Prod.snd)).Perm (pairs.map Prod.snd) := by
      have hp := (List.filter_append_perm (fun lp => lp.1 == k) pairs).map Prod.snd
      rw [List.map_append] at hp
      exact hp
    exact List.Perm.trans (List.Perm.append_left _ hih) hsplit

/-- Closed form of build_cluster_output (the let-bindings spelt out). -/
theorem build_cluster_output_eq (labels : List Int) (pois : List Poi) (b : Bool) :
    build_cluster_output labels pois b =
      nameClusters 1
        (((List.insertionSort (fun x y => x ≤ y)
            ((collectClusters b (labels.zip pois) [] []).1.map Prod.fst)).map
              (fun k => lookupPois (collectClusters b (labels.zip pois) [] []).1 k))
          ++ (if (collectClusters b (labels.zip pois) [] []).2.isEmpty then []
              else [(collectClusters b (labels.zip pois) [] []).2])) := rfl

theorem mem_nameClusters_pois (s : Nat) (xs : List (List Poi)) (c : Cluster)
    (h : c ∈ nameClusters s xs) : c.pois ∈ xs := by
  induction xs generalizing s with
  | nil => simp [nameClusters] at h
  | cons x xs ih =>
    rcases List.mem_cons.mp h with heq | hmem
    · rw [heq]
      exact List.mem_cons_self _ _
    · exact List.mem_cons_of_mem _ (ih _ hmem)

/-- Membership in the dict keys after collecting, with nothing to start
from: exactly the labels of the kept pairs. -/
theorem cm_keys_mem (b : Bool) (pairs : List (Int × Poi)) (k : Int) :
    k ∈ (collectClusters b pairs [] []).1.map Prod.fst ↔
      ∃ lp ∈ pairs, lp.1 = k ∧ ¬(lp.1 = -1 ∧ b = true) := by
  rw [collectClusters_keys_mem]
  simp

/-- The bucket of any key, with nothing to start from. -/
theorem cm_lookup (b : Bool) (pairs : List (Int × Poi)) (k : Int) :
    lookupPois (collectClusters b pairs [] []).1 k =
      (pairs.filter (fun lp => lp.1 == k && !(lp.1 == -1 && b))).map Prod.snd := by
  rw [collectClusters_lookup]
  simp [lookupPois]

theorem cm_noise (b : Bool) (pairs : List (Int × Poi)) :
    (collectClusters b pairs [] []).2 =
      (pairs.filter (fun lp => lp.1 == -1 && b)).map Prod.snd := by
  rw [collectClusters_snd]
  simp

theorem cm_keys_nodup (b : Bool) (pairs : List (Int × Poi)) :
    ((collectClusters b pairs [] []).1.map Prod.fst).Nodup :=
  collectClusters_keys_nodup b pairs [] [] (by simp)

/-- The partition invariant at the level of build_cluster_output: for
labels of matching length, the member lists of the output exhaust the
input pois exactly once each. -/
theorem build_cluster_output_perm (labels : List Int) (pois : List Poi) (b : Bool)
    (h : labels.length = pois.length) :
    (((build_cluster_output labels pois b).map Cluster.pois).flatten).Perm pois := by
  rw [build_cluster_output_eq, nameClusters_map_pois, List.flatten_append]
  have hmapeq : ((List.insertionSort (fun x y => x ≤ y)
      ((collectClusters b (labels.zip pois) [] []).1.map Prod.fst)).map
        (fun k => lookupPois (collectClusters b (labels.zip pois) [] []).1 k)) =
      ((List.insertionSort (fun x y => x ≤ y)
        ((collectClusters b (labels.zip pois) [] []).1.map Prod.fst)).map
          (fun k => ((labels.zip pois).filter
            (fun lp => lp.1 == k && !(lp.1 == -1 && b))).map Prod.snd)) := by
    apply List.map_congr_left
    intro k _
    exact cm_lookup b (labels.zip pois) k
  rw [hmapeq]
  have hperm := perm_buckets b
    (List.insertionSort (fun x y => x ≤ y)
      ((collectClusters b (labels.zip pois) [] []).1.map Prod.fst))
    (labels.zip pois)
    (((List.perm_insertionSort _ _).nodup_iff).mpr (cm_keys_nodup b (labels.zip pois)))
    (by
      intro lp hlp hkept
      rw [List.Perm.mem_iff (List.perm_insertionSort _ _)]
      exact (cm_keys_mem b (labels.zip pois) lp.1).mpr ⟨lp, hlp, rfl, hkept⟩)
    (by
      intro k hk
      rw [List.Perm.mem_iff (List.perm_insertionSort _ _)] at hk
      obtain ⟨lp, _, hlpk, hnb⟩ := (cm_keys_mem b (labels.zip pois) k).mp hk
      exact fun hc => hnb ⟨hlpk.trans hc.1, hc.2⟩)
  have hsnd : (labels.zip pois).map Prod.snd = pois :=
    List.map_snd_zip labels pois (le_of_eq h.symm)
  by_cases hempty : (collectClusters b (labels.zip pois) [] []).2.isEmpty
  · have hnil : ((labels.zip pois).filter (fun lp => lp.1 == -1 && b)).map Prod.snd = [] := by
      have := cm_noise b (labels.zip pois)
      rw [List.isEmpty_iff] at hempty
      rw [← this, hempty]
    rw [hnil, List.append_nil] at hperm
    simpa [hempty, hsnd] using hperm
  · have hns : (collectClusters b (labels.zip pois) [] []).2 =
        ((labels.zip pois).filter (fun lp => lp.1 == -1 && b)).map Prod.snd :=
      cm_noise b (labels.zip pois)
    rw [if_neg hempty]
    simp only [List.flatten_cons, List.flatten_nil, List.append_nil]
    rw [hns]
    rw [hsnd] at hperm
    exact hperm

/-- Every emitted cluster has at least one member. -/
theorem build_cluster_output_members (labels : List Int) (pois : List Poi) (b : Bool) :
    ∀ c ∈ build_cluster_output labels pois b, c.pois ≠ [] := by
  intro c hc
  rw [build_cluster_output_eq] at hc
  have hmem := mem_nameClusters_pois _ _ _ hc
  rcases List.mem_append.mp hmem with hreg | htail
  · obtain ⟨k, hk, hck⟩ := List.mem_map.mp hreg
    rw [List.Perm.mem_iff (List.perm_insertionSort _ _)] at hk
    obtain ⟨lp, hlp, hlpk, hnb⟩ := (cm_keys_mem b (labels.zip pois) k).mp hk
    rw [cm_lookup] at hck
    have hpred : (lp.1 == k && !(lp.1 == -1 && b)) = true := by
      cases hb : b with
      | false => simp [hlpk]
      | true =>
        have hkne : ¬ k = -1 := fun hcon => hnb ⟨hlpk.trans hcon, hb⟩
        simp [hlpk, hkne]
    have : lp.2 ∈ c.pois := by
      rw [← hck]
      exact List.mem_map_of_mem Prod.snd (List.mem_filter.mpr ⟨hlp, hpred⟩)
    exact fun hnil => by simp [hnil] at this
  · by_cases hempty : (collectClusters b (labels.zip pois) [] []).2.isEmpty
    · simp [hempty] at htail
    · rw [if_neg hempty] at htail
      rcases List.mem_singleton.mp htail with heq
      rw [heq]
      intro hnil
      rw [hnil] at hempty
      simp at hempty

/-- The emitted cluster ids are exactly cluster_1 .. cluster_m in order. -/
theorem build_cluster_output_ids (labels : List Int) (pois : List Poi) (b : Bool) :
    (build_cluster_output labels pois b).map Cluster.cluster_id =
      (List.range (build_cluster_output labels pois b).length).map
        (fun j => "cluster_" ++ toString (j + 1)) := by
  rw [build_cluster_output_eq, nameClusters_map_id, nameClusters_length]
  apply List.map_congr_left
  intro j _
  have : 1 + j = j + 1 := by omega
  rw [this]

/-- C5: the sorted-keys closed form of the assembler output: groups are
the label-filtered sublists of the input (so each cluster's members keep
the input iteration order), emitted in ascending internal label order
with ids cluster_1, cluster_2, ..., and all noise-labelled points form
one single trailing cluster - receiving the highest id - when any
exist. -/
theorem build_cluster_output_sorted_form (labels : List Int) (pois : List Poi)
    (h : labels.length = pois.length) :
    build_cluster_output labels pois true =
      nameClusters 1
        (((List.insertionSort (fun x y => x ≤ y) ((labels.filter (fun l => !(l == -1))).dedup)).map
            (fun k => ((labels.zip pois).filter (fun lp => lp.1 == k)).map Prod.snd))
          ++ (if (((labels.zip pois).filter (fun lp => lp.1 == -1)).map Prod.snd).isEmpty then []
              else [((labels.zip pois).filter (fun lp => lp.1 == -1)).map Prod.snd])) := by
  rw [build_cluster_output_eq]
  have hfst : (labels.zip pois).map Prod.fst = labels :=
    List.map_fst_zip labels pois (le_of_eq h)
  -- the two key lists agree
  have hkeyseq : List.insertionSort (fun x y => x ≤ y)
      ((collectClusters true (labels.zip pois) [] []).1.map Prod.fst) =
      List.insertionSort (fun x y => x ≤ y) ((labels.filter (fun l => !(l == -1))).dedup) := by
    apply List.eq_of_perm_of_sorted ?_
      (List.sorted_insertionSort _ _) (List.sorted_insertionSort _ _)
    have h1 : ((collectClusters true (labels.zip pois) [] []).1.map Prod.fst).Perm
        ((labels.filter (fun l => !(l == -1))).dedup) := by
      rw [List.perm_ext_iff_of_nodup (cm_keys_nodup _ _) (List.nodup_dedup _)]
      intro k
      rw [cm_keys_mem, List.mem_dedup, List.mem_filter]
      constructor
      · rintro ⟨lp, hlp, hlpk, hnb⟩
        have hkl : k ∈ labels := by
          rw [← hfst]
          exact hlpk ▸ List.mem_map_of_mem Prod.fst hlp
        have hne : ¬ k = -1 := fun hc => hnb ⟨hlpk.trans hc, rfl⟩
        exact ⟨hkl, by simp [hne]⟩
      · rintro ⟨hkl, hkne⟩
        have hne : ¬ k = -1 := by simpa using hkne
        rw [← hfst] at hkl
        obtain ⟨lp, hlp, hlpk⟩ := List.mem_map.mp hkl
        exact ⟨lp, hlp, hlpk, fun hcon => hne (hlpk ▸ hcon.1)⟩
    exact ((List.perm_insertionSort _ _).trans h1).trans
      (List.perm_insertionSort _ _).symm
  rw [hkeyseq]
  -- the buckets agree on every key of the sorted list
  have hbuckets : ((List.insertionSort (fun x y => x ≤ y)
      ((labels.filter (fun l => !(l == -1))).dedup)).map
        (fun k => lookupPois (collectClusters true (labels.zip pois) [] []).1 k)) =
      ((List.insertionSort (fun x y => x ≤ y)
        ((labels.filter (fun l => !(l == -1))).dedup)).map
          (fun k => ((labels.zip pois).filter (fun lp => lp.1 == k)).map Prod.snd)) := by
    apply List.map_congr_left
    intro k hk
    rw [List.Perm.mem_iff (List.perm_insertionSort _ _), List.mem_dedup, List.mem_filter] at hk
    have hkne : ¬ k = -1 := by simpa using hk.2
    rw [cm_lookup]
    congr 1
    apply List.filter_congr
    intro lp _
    by_cases hlp : lp.1 = k
    · simp [hlp, hkne]
    · simp [hlp]
  rw [hbuckets]
  -- the noise tails agree
  have hns := cm_noise true (labels.zip pois)
  simp only [Bool.and_true] at hns
  rw [← hns]

/- ----------------------------------------------------------------
   cluster_with_knn_distance
   ---------------------------------------------------------------- -/

/-- State of the breadth-first traversal: the labels array, the visited
set and the queue. -/
abbrev KnnState (n : Nat) : Type := (Fin n → Int) × Finset (Fin n) × List (Fin n)

/-- The inner loop over the kneighbors result of the current point: a
neighbor j at distance within the threshold, not yet visited and not
the current point itself, is labelled, marked visited and enqueued. -/
def processNeighbors {n : Nat} (current_label : Int) (current : Fin n)
    (max_distance_rad : ℚ) : List (Fin n × ℚ) → KnnState n → KnnState n
  | [], st => st
  | jd :: rest, (labels, visited, queue) =>
    if jd.1 ≠ current ∧ jd.2 ≤ max_distance_rad ∧ jd.1 ∉ visited then
      processNeighbors current_label current max_distance_rad rest
        (Function.update labels jd.1 current_label, insert jd.1 visited, queue ++ [jd.1])
    else
      processNeighbors current_label current max_distance_rad rest (labels, visited, queue)

theorem processNeighbors_subset {n : Nat} (cl : Int) (c : Fin n) (m : ℚ)
    (l : List (Fin n × ℚ)) (labels : Fin n → Int) (visited : Finset (Fin n))
    (queue : List (Fin n)) :
    visited ⊆ (processNeighbors cl c m l (labels, visited, queue)).2.1 := by
  induction l generalizing labels visited queue with
  | nil => exact fun x hx => hx
  | cons jd rest ih =>
    by_cases h : jd.1 ≠ c ∧ jd.2 ≤ m ∧ jd.1 ∉ visited
    · simp only [processNeighbors, if_pos h]
      exact fun x hx => ih _ _ _ (Finset.mem_insert_of_mem hx)
    · simp only [processNeighbors, if_neg h]
      exact ih _ _ _

theorem processNeighbors_queue {n : Nat} (cl : Int) (c : Fin n) (m : ℚ)
    (l : List (Fin n × ℚ)) (labels : Fin n → Int) (visited : Finset (Fin n))
    (queue : List (Fin n))
    (h : (processNeighbors cl c m l (labels, visited, queue)).2.1 = visited) :
    (processNeighbors cl c m l (labels, visited, queue)).2.2 = queue := by
  induction l generalizing labels visited queue with
  | nil => rfl
  | cons jd rest ih =>
    by_cases hc : jd.1 ≠ c ∧ jd.2 ≤ m ∧ jd.1 ∉ visited
    · exfalso
      simp only [processNeighbors, if_pos hc] at h
      have hsub := processNeighbors_subset cl c m rest
        (Function.update labels jd.1 cl) (insert jd.1 visited) (queue ++ [jd.1])
      have : jd.1 ∈ visited := by
        rw [← h]
        exact hsub (Finset.mem_insert_self _ _)
      exact hc.2.2 this
    · simp only [processNeighbors, if_neg hc] at h ⊢
      exact ih _ _ _ h

theorem processNeighbors_labels {n : Nat} (cl : Int) (c : Fin n) (m : ℚ)
    (l : List (Fin n × ℚ)) (labels : Fin n → Int) (visited : Finset (Fin n))
    (queue : List (Fin n))
    (hv : ∀ j ∈ visited, 0 ≤ labels j) (hc : 0 ≤ cl) :
    ∀ j ∈ (processNeighbors cl c m l (labels, visited, queue)).2.1,
      0 ≤ (processNeighbors cl c m l (labels, visited, queue)).1 j := by
  induction l generalizing labels visited queue with
  | nil => exact hv
  | cons jd rest ih =>
    by_cases hcond : jd.1 ≠ c ∧ jd.2 ≤ m ∧ jd.1 ∉ visited
    · simp only [processNeighbors, if_pos hcond]
      apply ih
      intro j hj
      rcases Finset.mem_insert.mp hj with heq | hmem
      · rw [heq, Function.update_same]
        exact hc
      · have hne : j ≠ jd.1 := fun hcon => hcond.2.2 (hcon ▸ hmem)
        rw [Function.update_noteq hne]
        exact hv j hmem
    · simp only [processNeighbors, if_neg hcond]
      exact ih _ _ _ hv

/-- The while loop of the traversal: pop the head of the queue, scan its
neighbors, repeat until the queue is empty. -/
def bfsLoop {n : Nat} (nbrs : Fin n → List (Fin n × ℚ)) (max_distance_rad : ℚ)
    (current_label : Int) : KnnState n → (Fin n → Int) × Finset (Fin n)
  | (labels, visited, []) => (labels, visited)
  | (labels, visited, current :: rest) =>
    bfsLoop nbrs max_distance_rad current_label
      (processNeighbors current_label current max_distance_rad (nbrs current)
        (labels, visited, rest))
termination_by st => ((Finset.univ \ st.2.1).card, st.2.2.length)
decreasing_by
  simp_wf
  set r := processNeighbors current_label current max_distance_rad (nbrs current)
    (labels, visited, rest) with hr
  by_cases heq : r.2.1 = visited
  · have hq := processNeighbors_queue current_label current max_distance_rad
      (nbrs current) labels visited rest heq
    rw [← hr] at hq
    rw [heq, hq]
    exact Prod.Lex.right _ (by simp)
  · have hsub := processNeighbors_subset current_label current max_distance_rad
      (nbrs current) labels visited rest
    rw [← hr] at hsub
    apply Prod.Lex.left
    apply Finset.card_lt_card
    rw [Finset.ssubset_iff_of_subset (Finset.sdiff_subset_sdiff (le_refl _) hsub)]
    have hnsub : ¬ r.2.1 ⊆ visited := fun hcon => heq (Finset.Subset.antisymm hcon hsub)
    obtain ⟨x, hxr, hxv⟩ := Finset.not_subset.mp hnsub
    exact ⟨x, Finset.mem_sdiff.mpr ⟨Finset.mem_univ _, hxv⟩,
      fun hmem => (Finset.mem_sdiff.mp hmem).2 hxr⟩

theorem bfsLoop_inv {n : Nat} (nbrs : Fin n → List (Fin n × ℚ)) (m : ℚ) (cl : Int)
    (hc : 0 ≤ cl) (st : KnnState n) :
    (∀ j ∈ st.2.1, 0 ≤ st.1 j) →
      (∀ j ∈ (bfsLoop nbrs m cl st).2, 0 ≤ (bfsLoop nbrs m cl st).1 j) ∧
        st.2.1 ⊆ (bfsLoop nbrs m cl st).2 := by
  induction st using bfsLoop.induct nbrs m cl with
  | case1 labels visited =>
    intro hv
    simp only [bfsLoop]
    exact ⟨hv, fun x hx => hx⟩
  | case2 labels visited current rest ih =>
    intro hv
    have hpn := processNeighbors_labels cl current m (nbrs current) labels visited rest hv hc
    have hsub := processNeighbors_subset cl current m (nbrs current) labels visited rest
    obtain ⟨h1, h2⟩ := ih hpn
    simp only [bfsLoop]
    exact ⟨h1, fun x hx => h2 (hsub hx)⟩

/-- The outer loop over all points: start a fresh cluster at every point
not yet visited. -/
def knnLoop {n : Nat} (nbrs : Fin n → List (Fin n × ℚ)) (max_distance_rad : ℚ) :
    List (Fin n) → (Fin n → Int) → Finset (Fin n) → Int → (Fin n → Int)
  | [], labels, _, _ => labels
  | i :: rest, labels, visited, current_label =>
    if i ∈ visited then knnLoop nbrs max_distance_rad rest labels visited current_label
    else
      knnLoop nbrs max_distance_rad rest
        (bfsLoop nbrs max_distance_rad current_label
          (Function.update labels i current_label, insert i visited, [i])).1
        (bfsLoop nbrs max_distance_rad current_label
          (Function.update labels i current_label, insert i visited, [i])).2
        (current_label + 1)

theorem knnLoop_inv {n : Nat} (nbrs : Fin n → List (Fin n × ℚ)) (m : ℚ)
    (L : List (Fin n)) (labels : Fin n → Int) (visited : Finset (Fin n)) (cl : Int)
    (hv : ∀ j ∈ visited, 0 ≤ labels j) (hc : 0 ≤ cl) :
    ∀ i : Fin n, (i ∈ visited ∨ i ∈ L) → 0 ≤ knnLoop nbrs m L labels visited cl i := by
  induction L generalizing labels visited cl with
  | nil =>
    intro i hi
    rcases hi with hi | hi
    · exact hv i hi
    · simp at hi
  | cons i0 rest ih =>
    intro i hi
    by_cases h0 : i0 ∈ visited
    · simp only [knnLoop, if_pos h0]
      apply ih labels visited cl hv hc
      rcases hi with hi | hi
      · exact Or.inl hi
      · rcases List.mem_cons.mp hi with heq | hmem
        · exact Or.inl (heq ▸ h0)
        · exact Or.inr hmem
    · simp only [knnLoop, if_neg h0]
      have hv' : ∀ j ∈ insert i0 visited, 0 ≤ Function.update labels i0 cl j := by
        intro j hj
        rcases Finset.mem_insert.mp hj with heq | hmem
        · rw [heq, Function.update_same]
          exact hc
        · have hne : j ≠ i0 := fun hcon => h0 (hcon ▸ hmem)
          rw [Function.update_noteq hne]
          exact hv j hmem
      obtain ⟨hb1, hb2⟩ := bfsLoop_inv nbrs m cl hc
        (Function.update labels i0 cl, insert i0 visited, [i0]) hv'
      apply ih _ _ _ hb1 (by omega)
      rcases hi with hi | hi
      · exact Or.inl (hb2 (Finset.mem_insert_of_mem hi))
      · rcases List.mem_cons.mp hi with heq | hmem
        · exact Or.inl (hb2 (heq ▸ Finset.mem_insert_self _ _))
        · exact Or.inr hmem

/-- cluster_with_knn_distance: breadth-first grouping over the
kneighbors graph supplied by the nearest-neighbors library oracle
(the respository asks the library for min(10, n) neighbors per point
with the haversine metric, then chains within max_distance_km / 6371
radians). -/
def cluster_with_knn_distance (coords : List (ℝ × ℝ))
    (knnLib : (k : Nat) → (cs : List (ℝ × ℝ)) → Fin cs.length → List (Fin cs.length × ℚ))
    (max_distance_km : ℚ) : List Int :=
  let nbrs := knnLib (min 10 coords.length) coords
  let max_distance_rad := max_distance_km / 6371
  (List.finRange coords.length).map
    (knnLoop nbrs max_distance_rad (List.finRange coords.length) (fun _ => -1) ∅ 0)

theorem cluster_with_knn_distance_length (coords : List (ℝ × ℝ))
    (knnLib : (k : Nat) → (cs : List (ℝ × ℝ)) → Fin cs.length → List (Fin cs.length × ℚ))
    (km : ℚ) :
    (cluster_with_knn_distance coords knnLib km).length = coords.length := by
  simp [cluster_with_knn_distance]

theorem cluster_with_knn_distance_nonneg (coords : List (ℝ × ℝ))
    (knnLib : (k : Nat) → (cs : List (ℝ × ℝ)) → Fin cs.length → List (Fin cs.length × ℚ))
    (km : ℚ) :
    ∀ l ∈ cluster_with_knn_distance coords knnLib km, 0 ≤ l := by
  intro l hl
  simp only [cluster_with_knn_distance, List.mem_map] at hl
  obtain ⟨i, hi, hli⟩ := hl
  rw [← hli]
  exact knnLoop_inv _ _ _ _ _ _ (by simp) (le_refl 0) i (Or.inr hi)

/- ----------------------------------------------------------------
   cluster_with_hdbscan, cluster_with_dbscan_fallback, cluster_pois
   ---------------------------------------------------------------- -/

/-- cluster_with_hdbscan: the repository picks min_cluster_size from the
input size, keeps min_samples at its default 2, and hands the
radian coordinates to the HDBSCAN library (the hdbLib oracle:
min_cluster_size, min_samples, coords). -/
def cluster_with_hdbscan (hdbLib : Nat → Nat → List (ℝ × ℝ) → List Int)
    (coords : List (ℝ × ℝ)) : List Int :=
  let min_cluster_size :=
    if coords.length < 10 then 2
    else if coords.length < 50 then 3
    else max 3 (coords.length / 50)
  hdbLib min_cluster_size 2 coords

/-- cluster_with_dbscan_fallback: eps_km is divided by 111 (the rough
km-per-degree factor) and the result is passed as eps to the DBSCAN
library (the dbsLib oracle: eps, min_samples, coords) together with
min_samples = 2. -/
noncomputable def cluster_with_dbscan_fallback (dbsLib : ℝ → Nat → List (ℝ × ℝ) → List Int)
    (coords : List (ℝ × ℝ)) (eps_km : ℝ) : List Int :=
  dbsLib (eps_km / 111) 2 coords

/-- np.radians applied to the (lat, lng) rows extracted from the pois. -/
noncomputable def coords_rad (pois : List Poi) : List (ℝ × ℝ) :=
  pois.map (fun p => (p.lat * (Real.pi / 180), p.lng * (Real.pi / 180)))

/-- cluster_pois: empty and singleton base cases, then the strategy
chain HDBSCAN (n at least 3) - DBSCAN fallback (n at least 2) - KNN
grouping, a strategy's labels being kept when they contain at least one
label other than -1. -/
noncomputable def cluster_pois (hdbLib : Nat → Nat → List (ℝ × ℝ) → List Int)
    (dbsLib : ℝ → Nat → List (ℝ × ℝ) → List Int)
    (knnLib : (k : Nat) → (cs : List (ℝ × ℝ)) → Fin cs.length → List (Fin cs.length × ℚ))
    (pois : List Poi) : List Cluster :=
  match pois with
  | [] => []
  | [p] => [{ cluster_id := "cluster_1", pois := [p] }]
  | _ =>
    let coords := coords_rad pois
    let hlabels := cluster_with_hdbscan hdbLib coords
    if 3 ≤ pois.length ∧ 0 < (hlabels.dedup.filter (fun l => !(l == -1))).length then
      build_cluster_output hlabels pois true
    else
      let dlabels := cluster_with_dbscan_fallback dbsLib coords 2
      if 2 ≤ pois.length ∧ 0 < (dlabels.dedup.filter (fun l => !(l == -1))).length then
        build_cluster_output dlabels pois true
      else
        build_cluster_output (cluster_with_knn_distance coords knnLib 2) pois false

/-- The usable-result test of the source (at least one non-noise label
among the deduplicated labels) said with an existential. -/
theorem usable_iff (labels : List Int) :
    0 < (labels.dedup.filter (fun l => !(l == -1))).length ↔
      ∃ l ∈ labels, l ≠ -1 := by
  rw [List.length_pos_iff_exists_mem]
  constructor
  · rintro ⟨x, hx⟩
    rw [List.mem_filter, List.mem_dedup] at hx
    exact ⟨x, hx.1, by simpa using hx.2⟩
  · rintro ⟨l, hl, hne⟩
    exact ⟨l, List.mem_filter.mpr ⟨List.mem_dedup.mpr hl, by simpa using hne⟩⟩

theorem coords_rad_length (pois : List Poi) : (coords_rad pois).length = pois.length := by
  simp [coords_rad]

theorem cluster_pois_cons₂ (hdbLib : Nat → Nat → List (ℝ × ℝ) → List Int)
    (dbsLib : ℝ → Nat → List (ℝ × ℝ) → List Int)
    (knnLib : (k : Nat) → (cs : List (ℝ × ℝ)) → Fin cs.length → List (Fin cs.length × ℚ))
    (p q : Poi) (rest : List Poi) :
    cluster_pois hdbLib dbsLib knnLib (p :: q :: rest) =
      (if 3 ≤ (p :: q :: rest).length ∧
          0 < ((cluster_with_hdbscan hdbLib (coords_rad (p :: q :: rest))).dedup.filter
            (fun l => !(l == -1))).length then
        build_cluster_output (cluster_with_hdbscan hdbLib (coords_rad (p :: q :: rest)))
          (p :: q :: rest) true
      else if 2 ≤ (p :: q :: rest).length ∧
          0 < ((cluster_with_dbscan_fallback dbsLib (coords_rad (p :: q :: rest)) 2).dedup.filter
            (fun l => !(l == -1))).length then
        build_cluster_output (cluster_with_dbscan_fallback dbsLib (coords_rad (p :: q :: rest)) 2)
          (p :: q :: rest) true
      else
        build_cluster_output (cluster_with_knn_distance (coords_rad (p :: q :: rest)) knnLib 2)
          (p :: q :: rest) false) := rfl

/- Concrete oracles used to exercise the engine on closed inputs. -/

/-- A density-library stand-in that marks every point as one cluster. -/
def oracleHdb : Nat → Nat → List (ℝ × ℝ) → List Int := fun _ _ cs => cs.map (fun _ => 0)

/-- A DBSCAN stand-in that marks every point as one cluster. -/
def oracleDbs : ℝ → Nat → List (ℝ × ℝ) → List Int := fun _ _ cs => cs.map (fun _ => 0)

/-- A kneighbors stand-in returning no neighbors at all. -/
def oracleKnn : (k : Nat) → (cs : List (ℝ × ℝ)) → Fin cs.length → List (Fin cs.length × ℚ) :=
  fun _ _ _ => []

def poiA : Poi := { id := "a", name := "A", lat := 0, lng := 0 }

def poiB : Poi := { id := "b", name := "B", lat := 1, lng := 1 }

def poiC : Poi := { id := "c", name := "C", lat := 2, lng := 2 }

/-- C1: for every input batch, the union of all returned clusters'
member lists is a permutation of the input point sequence — no point
lost, none duplicated — whichever strategy tier produced the labels
(the two library oracles are only assumed to return one label per
point). -/
theorem cluster_pois_partition (hdbLib : Nat → Nat → List (ℝ × ℝ) → List Int)
    (dbsLib : ℝ → Nat → List (ℝ × ℝ) → List Int)
    (knnLib : (k : Nat) → (cs : List (ℝ × ℝ)) → Fin cs.length → List (Fin cs.length × ℚ))
    (pois : List Poi)
    (hh : (cluster_with_hdbscan hdbLib (coords_rad pois)).length = pois.length)
    (hd : (cluster_with_dbscan_fallback dbsLib (coords_rad pois) 2).length = pois.length) :
    (((cluster_pois hdbLib dbsLib knnLib pois).map Cluster.pois).flatten).Perm pois := by
  match pois with
  | [] => simp [cluster_pois]
  | [p] => simp [cluster_pois]
  | p :: q :: rest =>
    rw [cluster_pois_cons₂]
    split_ifs with h1 h2
    · exact build_cluster_output_perm _ _ _ hh
    · exact build_cluster_output_perm _ _ _ hd
    · exact build_cluster_output_perm _ _ _
        ((cluster_with_knn_distance_length _ _ _).trans (coords_rad_length _))

theorem cluster_pois_partition_witness :
    (((cluster_pois oracleHdb oracleDbs oracleKnn [poiA, poiB]).map Cluster.pois).flatten).Perm
      [poiA, poiB] :=
  cluster_pois_partition oracleHdb oracleDbs oracleKnn [poiA, poiB]
    (by simp [cluster_with_hdbscan, oracleHdb, coords_rad])
    (by simp [cluster_with_dbscan_fallback, oracleDbs, coords_rad])

/-- C2: the strategy chain of cluster_pois: empty input gives an empty
list; a single point gives the one cluster cluster_1 with no strategy
run; with at least 3 points the density clusterer is tried first and
its output kept exactly when it has a non-noise label; otherwise (and
for exactly 2 points) the distance-threshold clusterer is tried under
the same usability test; otherwise the neighbor-chain clusterer
decides. -/
theorem cluster_pois_strategy_chain (hdbLib : Nat → Nat → List (ℝ × ℝ) → List Int)
    (dbsLib : ℝ → Nat → List (ℝ × ℝ) → List Int)
    (knnLib : (k : Nat) → (cs : List (ℝ × ℝ)) → Fin cs.length → List (Fin cs.length × ℚ))
    (pois : List Poi) :
    (pois = [] → cluster_pois hdbLib dbsLib knnLib pois = []) ∧
    (∀ p, pois = [p] →
      cluster_pois hdbLib dbsLib knnLib pois = [{ cluster_id := "cluster_1", pois := [p] }]) ∧
    (3 ≤ pois.length →
      (∃ l ∈ cluster_with_hdbscan hdbLib (coords_rad pois), l ≠ -1) →
      cluster_pois hdbLib dbsLib knnLib pois =
        build_cluster_output (cluster_with_hdbscan hdbLib (coords_rad pois)) pois true) ∧
    (2 ≤ pois.length →
      (3 ≤ pois.length → ¬ ∃ l ∈ cluster_with_hdbscan hdbLib (coords_rad pois), l ≠ -1) →
      (∃ l ∈ cluster_with_dbscan_fallback dbsLib (coords_rad pois) 2, l ≠ -1) →
      cluster_pois hdbLib dbsLib knnLib pois =
        build_cluster_output (cluster_with_dbscan_fallback dbsLib (coords_rad pois) 2) pois true) ∧
    (2 ≤ pois.length →
      (3 ≤ pois.length → ¬ ∃ l ∈ cluster_with_hdbscan hdbLib (coords_rad pois), l ≠ -1) →
      (¬ ∃ l ∈ cluster_with_dbscan_fallback dbsLib (coords_rad pois) 2, l ≠ -1) →
      cluster_pois hdbLib dbsLib knnLib pois =
        build_cluster_output (cluster_with_knn_distance (coords_rad pois) knnLib 2) pois false) := by
  refine ⟨?_, ?_, ?_, ?_, ?_⟩
  · intro h
    rw [h]
    rfl
  · intro p h
    rw [h]
    rfl
  · intro hlen husable
    match pois, hlen with
    | p :: q :: r :: rest, _ =>
      rw [cluster_pois_cons₂, if_pos]
      exact ⟨by simp, (usable_iff _).mpr husable⟩
  · intro hlen hhdb husable
    match pois, hlen with
    | p :: q :: rest, _ =>
      rw [cluster_pois_cons₂]
      rcases rest with _ | ⟨r, rest⟩
      · rw [if_neg (fun hcon => by simpa using hcon.1), if_pos]
        exact ⟨by simp, (usable_iff _).mpr husable⟩
      · rw [if_neg, if_pos]
        · exact ⟨by simp, (usable_iff _).mpr husable⟩
        · rintro ⟨-, hcon⟩
          exact hhdb (by simp) ((usable_iff _).mp hcon)
  · intro hlen hhdb hdbs
    match pois, hlen with
    | p :: q :: rest, _ =>
      rw [cluster_pois_cons₂]
      rw [if_neg, if_neg]
      · rintro ⟨-, hcon⟩
        exact hdbs ((usable_iff _).mp hcon)
      · rcases rest with _ | ⟨r, rest⟩
        · rintro ⟨hcon, -⟩
          simp at hcon
        · rintro ⟨-, hcon⟩
          exact hhdb (by simp) ((usable_iff _).mp hcon)

/-- C6: the neighbor-chain clusterer terminates on every input with a
full labelling: one label per input point, every label non-negative
(no noise sentinel), whatever neighbor lists the kneighbors oracle
returns. -/
theorem cluster_with_knn_distance_total (coords : List (ℝ × ℝ))
    (knnLib : (k : Nat) → (cs : List (ℝ × ℝ)) → Fin cs.length → List (Fin cs.length × ℚ))
    (km : ℚ) :
    (cluster_with_knn_distance coords knnLib km).length = coords.length ∧
    ∀ l ∈ cluster_with_knn_distance coords knnLib km, 0 ≤ l :=
  ⟨cluster_with_knn_distance_length coords knnLib km,
    cluster_with_knn_distance_nonneg coords knnLib km⟩

/-- C7: the density clusterer computes min_cluster_size as 2 for fewer
than 10 points, 3 for 10 to 49, and max 3 (n / 50) from 50 on, always
passes min_samples = 2, and cluster_pois hands it the degree-to-radian
converted coordinates. -/
theorem cluster_with_hdbscan_policy (hdbLib : Nat → Nat → List (ℝ × ℝ) → List Int)
    (coords : List (ℝ × ℝ)) :
    (coords.length < 10 → cluster_with_hdbscan hdbLib coords = hdbLib 2 2 coords) ∧
    (10 ≤ coords.length → coords.length < 50 →
      cluster_with_hdbscan hdbLib coords = hdbLib 3 2 coords) ∧
    (50 ≤ coords.length →
      cluster_with_hdbscan hdbLib coords = hdbLib (max 3 (coords.length / 50)) 2 coords) ∧
    (∀ pois : List Poi, coords_rad pois =
      pois.map (fun p => (p.lat * (Real.pi / 180), p.lng * (Real.pi / 180)))) := by
  refine ⟨?_, ?_, ?_, fun _ => rfl⟩
  · intro h
    simp [cluster_with_hdbscan, h]
  · intro h1 h2
    simp [cluster_with_hdbscan, h2, Nat.not_lt.mpr h1]
  · intro h
    have h1 : ¬ coords.length < 10 := by omega
    have h2 : ¬ coords.length < 50 := by omega
    simp [cluster_with_hdbscan, h1, h2]

/-- C8: cluster_pois is a pure function of its input batch: runs on
equal inputs (same points in the same order) return identical outputs,
the library calls being deterministic functions themselves. -/
theorem cluster_pois_deterministic (hdbLib : Nat → Nat → List (ℝ × ℝ) → List Int)
    (dbsLib : ℝ → Nat → List (ℝ × ℝ) → List Int)
    (knnLib : (k : Nat) → (cs : List (ℝ × ℝ)) → Fin cs.length → List (Fin cs.length × ℚ))
    (pois₁ pois₂ : List Poi) (h : pois₁ = pois₂) :
    cluster_pois hdbLib dbsLib knnLib pois₁ = cluster_pois hdbLib dbsLib knnLib pois₂ := by
  rw [h]

theorem cluster_pois_deterministic_witness :
    cluster_pois oracleHdb oracleDbs oracleKnn [poiA, poiB, poiC] =
      cluster_pois oracleHdb oracleDbs oracleKnn [poiA, poiB, poiC] :=
  cluster_pois_deterministic oracleHdb oracleDbs oracleKnn _ _ rfl

/-- C9: every emitted cluster is non-empty, and the emitted ids are
exactly cluster_1 .. cluster_m in ascending numeric order. -/
theorem cluster_pois_output_wellformed (hdbLib : Nat → Nat → List (ℝ × ℝ) → List Int)
    (dbsLib : ℝ → Nat → List (ℝ × ℝ) → List Int)
    (knnLib : (k : Nat) → (cs : List (ℝ × ℝ)) → Fin cs.length → List (Fin cs.length × ℚ))
    (pois : List Poi) :
    (∀ c ∈ cluster_pois hdbLib dbsLib knnLib pois, c.pois ≠ []) ∧
    (cluster_pois hdbLib dbsLib knnLib pois).map Cluster.cluster_id =
      (List.range (cluster_pois hdbLib dbsLib knnLib pois).length).map
        (fun j => "cluster_" ++ toString (j + 1)) := by
  match pois with
  | [] =>
    refine ⟨by simp [cluster_pois], ?_⟩
    simp [cluster_pois]
  | [p] =>
    refine ⟨?_, ?_⟩
    · intro c hc
      rcases List.mem_singleton.mp hc with rfl
      simp [cluster_pois]
    · show ["cluster_1"] = (List.range 1).map (fun j => "cluster_" ++ toString (j + 1))
      decide
  | p :: q :: rest =>
    rw [cluster_pois_cons₂]
    split_ifs with h1 h2
    · exact ⟨build_cluster_output_members _ _ _, build_cluster_output_ids _ _ _⟩
    · exact ⟨build_cluster_output_members _ _ _, build_cluster_output_ids _ _ _⟩
    · exact ⟨build_cluster_output_members _ _ _, build_cluster_output_ids _ _ _⟩

/- ----------------------------------------------------------------
   haversine (exact-real model of the distance function)
   ---------------------------------------------------------------- -/

/-- The intermediate value a of the haversine formula: the four inputs
are degrees, converted to radians first as math.radians does. -/
noncomputable def haversine_a (lat1 lon1 lat2 lon2 : ℝ) : ℝ :=
  let lat1r := lat1 * (Real.pi / 180)
  let lon1r := lon1 * (Real.pi / 180)
  let lat2r := lat2 * (Real.pi / 180)
  let lon2r := lon2 * (Real.pi / 180)
  let dlat := lat2r - lat1r
  let dlon := lon2r - lon1r
  Real.sin (dlat / 2) ^ 2 + Real.cos lat1r * Real.cos lat2r * Real.sin (dlon / 2) ^ 2

/-- haversine: great-circle distance in km on the sphere of radius
R = 6371. -/
noncomputable def haversine (lat1 lon1 lat2 lon2 : ℝ) : ℝ :=
  2 * 6371 * Real.arcsin (Real.sqrt (haversine_a lat1 lon1 lat2 lon2))

theorem deg_cos_nonneg (t : ℝ) (h1 : -90 ≤ t) (h2 : t ≤ 90) :
    0 ≤ Real.cos (t * (Real.pi / 180)) := by
  apply Real.cos_nonneg_of_mem_Icc
  constructor
  · have := Real.pi_pos
    nlinarith [mul_nonneg (by linarith : (0:ℝ) ≤ t + 90) Real.pi_pos.le]
  · have := Real.pi_pos
    nlinarith [mul_nonneg (by linarith : (0:ℝ) ≤ 90 - t) Real.pi_pos.le]

theorem haversine_a_nonneg (lat1 lon1 lat2 lon2 : ℝ)
    (h1 : -90 ≤ lat1) (h2 : lat1 ≤ 90) (h3 : -90 ≤ lat2) (h4 : lat2 ≤ 90) :
    0 ≤ haversine_a lat1 lon1 lat2 lon2 := by
  have hc1 := deg_cos_nonneg lat1 h1 h2
  have hc2 := deg_cos_nonneg lat2 h3 h4
  simp only [haversine_a]
  have := sq_nonneg (Real.sin ((lat2 * (Real.pi / 180) - lat1 * (Real.pi / 180)) / 2))
  have := sq_nonneg (Real.sin ((lon2 * (Real.pi / 180) - lon1 * (Real.pi / 180)) / 2))
  nlinarith [mul_nonneg (mul_nonneg hc1 hc2)
    (sq_nonneg (Real.sin ((lon2 * (Real.pi / 180) - lon1 * (Real.pi / 180)) / 2)))]

theorem haversine_a_le_one (lat1 lon1 lat2 lon2 : ℝ)
    (h1 : -90 ≤ lat1) (h2 : lat1 ≤ 90) (h3 : -90 ≤ lat2) (h4 : lat2 ≤ 90) :
    haversine_a lat1 lon1 lat2 lon2 ≤ 1 := by
  have hc1 := deg_cos_nonneg lat1 h1 h2
  have hc2 := deg_cos_nonneg lat2 h3 h4
  simp only [haversine_a]
  set x1 := lat1 * (Real.pi / 180)
  set x2 := lat2 * (Real.pi / 180)
  set y := (lon2 * (Real.pi / 180) - lon1 * (Real.pi / 180)) / 2
  have hsy : Real.sin y ^ 2 ≤ 1 := Real.sin_sq_le_one y
  have hsq : Real.sin ((x2 - x1) / 2) ^ 2 = 1 / 2 - Real.cos (x2 - x1) / 2 := by
    have h := Real.sin_sq_eq_half_sub ((x2 - x1) / 2)
    rw [show 2 * ((x2 - x1) / 2) = x2 - x1 by ring] at h
    exact h
  have hcos_sub := Real.cos_sub x2 x1
  have hcos_add := Real.cos_add x1 x2
  have hle := Real.cos_le_one (x1 + x2)
  nlinarith [mul_nonneg hc1 hc2, mul_le_of_le_one_right (mul_nonneg hc1 hc2) hsy]

/-- C10: under the coordinate-range precondition the haversine
intermediate a lies in the closed unit interval, so the square root
and the arcsine stay inside their domains, and the returned distance
is between 0 and pi times 6371 km. -/
theorem haversine_value_range (lat1 lon1 lat2 lon2 : ℝ)
    (h1 : -90 ≤ lat1) (h2 : lat1 ≤ 90) (h3 : -90 ≤ lat2) (h4 : lat2 ≤ 90)
    (_h5 : -180 ≤ lon1) (_h6 : lon1 ≤ 180) (_h7 : -180 ≤ lon2) (_h8 : lon2 ≤ 180) :
    0 ≤ haversine_a lat1 lon1 lat2 lon2 ∧ haversine_a lat1 lon1 lat2 lon2 ≤ 1 ∧
    0 ≤ haversine lat1 lon1 lat2 lon2 ∧
    haversine lat1 lon1 lat2 lon2 ≤ Real.pi * 6371 := by
  refine ⟨haversine_a_nonneg lat1 lon1 lat2 lon2 h1 h2 h3 h4,
    haversine_a_le_one lat1 lon1 lat2 lon2 h1 h2 h3 h4, ?_, ?_⟩
  · have := Real.arcsin_nonneg.mpr
      (Real.sqrt_nonneg (haversine_a lat1 lon1 lat2 lon2))
    simp only [haversine]
    nlinarith
  · have := Real.arcsin_le_pi_div_two
      (Real.sqrt (haversine_a lat1 lon1 lat2 lon2))
    simp only [haversine]
    nlinarith [Real.pi_pos]

theorem haversine_value_range_witness :
    0 ≤ haversine_a 0 0 45 90 ∧ haversine_a 0 0 45 90 ≤ 1 ∧
    0 ≤ haversine 0 0 45 90 ∧ haversine 0 0 45 90 ≤ Real.pi * 6371 :=
  haversine_value_range 0 0 45 90 (by norm_num) (by norm_num) (by norm_num)
    (by norm_num) (by norm_num) (by norm_num) (by norm_num) (by norm_num)

theorem haversine_symm (lat1 lon1 lat2 lon2 : ℝ) :
    haversine lat1 lon1 lat2 lon2 = haversine lat2 lon2 lat1 lon1 := by
  have ha : haversine_a lat1 lon1 lat2 lon2 = haversine_a lat2 lon2 lat1 lon1 := by
    simp only [haversine_a]
    rw [show lat1 * (Real.pi / 180) - lat2 * (Real.pi / 180) =
          -(lat2 * (Real.pi / 180) - lat1 * (Real.pi / 180)) by ring,
        show lon1 * (Real.pi / 180) - lon2 * (Real.pi / 180) =
          -(lon2 * (Real.pi / 180) - lon1 * (Real.pi / 180)) by ring,
        neg_div, neg_div, Real.sin_neg, Real.sin_neg]
    ring
  simp only [haversine, ha]

theorem haversine_eq_zero_iff_a (lat1 lon1 lat2 lon2 : ℝ)
    (ha : 0 ≤ haversine_a lat1 lon1 lat2 lon2) :
    haversine lat1 lon1 lat2 lon2 = 0 ↔ haversine_a lat1 lon1 lat2 lon2 = 0 := by
  simp only [haversine]
  constructor
  · intro h
    have harc : Real.arcsin (Real.sqrt (haversine_a lat1 lon1 lat2 lon2)) = 0 := by
      linarith
    have hnpos : ¬ 0 < Real.sqrt (haversine_a lat1 lon1 lat2 lon2) := by
      intro hpos
      have := Real.arcsin_pos.mpr hpos
      linarith
    have hz : Real.sqrt (haversine_a lat1 lon1 lat2 lon2) = 0 :=
      le_antisymm (not_lt.mp hnpos) (Real.sqrt_nonneg _)
    exact (Real.sqrt_eq_zero ha).mp hz
  · intro h
    rw [h, Real.sqrt_zero, Real.arcsin_zero, mul_zero]

theorem cos_deg_eq_zero_iff (t : ℝ) (h1 : -90 ≤ t) (h2 : t ≤ 90) :
    Real.cos (t * (Real.pi / 180)) = 0 ↔ (t = 90 ∨ t = -90) := by
  have hpi := Real.pi_pos
  have hb1 : -(Real.pi / 2) ≤ t * (Real.pi / 180) := by
    nlinarith [mul_nonneg (by linarith : (0:ℝ) ≤ t + 90) Real.pi_pos.le]
  have hb2 : t * (Real.pi / 180) ≤ Real.pi / 2 := by
    nlinarith [mul_nonneg (by linarith : (0:ℝ) ≤ 90 - t) Real.pi_pos.le]
  constructor
  · intro h
    by_cases hup : t * (Real.pi / 180) = Real.pi / 2
    · left
      have : t * (Real.pi / 180) = 90 * (Real.pi / 180) := by
        rw [hup]
        ring
      exact mul_right_cancel₀ (by positivity) this
    · by_cases hdn : t * (Real.pi / 180) = -(Real.pi / 2)
      · right
        have : t * (Real.pi / 180) = (-90) * (Real.pi / 180) := by
          rw [hdn]
          ring
        exact mul_right_cancel₀ (by positivity) this
      · exfalso
        have hin : t * (Real.pi / 180) ∈ Set.Ioo (-(Real.pi / 2)) (Real.pi / 2) :=
          ⟨lt_of_le_of_ne hb1 (fun hcon => hdn hcon.symm), lt_of_le_of_ne hb2 hup⟩
        exact (ne_of_gt (Real.cos_pos_of_mem_Ioo hin)) h
  · rintro (rfl | rfl)
    · rw [show (90 : ℝ) * (Real.pi / 180) = Real.pi / 2 by ring, Real.cos_pi_div_two]
    · rw [show (-90 : ℝ) * (Real.pi / 180) = -(Real.pi / 2) by ring, Real.cos_neg,
        Real.cos_pi_div_two]

theorem sin_half_dlat_eq_zero_iff (lat1 lat2 : ℝ) (h1 : -90 ≤ lat1) (h2 : lat1 ≤ 90)
    (h3 : -90 ≤ lat2) (h4 : lat2 ≤ 90) :
    Real.sin ((lat2 * (Real.pi / 180) - lat1 * (Real.pi / 180)) / 2) = 0 ↔ lat1 = lat2 := by
  have hpi := Real.pi_pos
  have hx : (lat2 * (Real.pi / 180) - lat1 * (Real.pi / 180)) / 2 =
      (lat2 - lat1) * (Real.pi / 360) := by ring
  rw [hx]
  have hb1 : -Real.pi < (lat2 - lat1) * (Real.pi / 360) := by
    nlinarith [mul_nonneg (by linarith : (0:ℝ) ≤ lat2 - lat1 + 180) Real.pi_pos.le]
  have hb2 : (lat2 - lat1) * (Real.pi / 360) < Real.pi := by
    nlinarith [mul_nonneg (by linarith : (0:ℝ) ≤ 180 - (lat2 - lat1)) Real.pi_pos.le]
  rw [Real.sin_eq_zero_iff_of_lt_of_lt hb1 hb2, mul_eq_zero]
  constructor
  · rintro (h | h)
    · linarith
    · exfalso
      have : Real.pi = 0 := by linarith
      exact Real.pi_ne_zero this
  · intro h
    left
    linarith

theorem sin_half_dlon_eq_zero_iff (lon1 lon2 : ℝ) (h5 : -180 ≤ lon1) (h6 : lon1 ≤ 180)
    (h7 : -180 ≤ lon2) (h8 : lon2 ≤ 180) :
    Real.sin ((lon2 * (Real.pi / 180) - lon1 * (Real.pi / 180)) / 2) = 0 ↔
      (lon1 = lon2 ∨ lon1 - lon2 = 360 ∨ lon2 - lon1 = 360) := by
  have hpi := Real.pi_pos
  have hx : (lon2 * (Real.pi / 180) - lon1 * (Real.pi / 180)) / 2 =
      (lon2 - lon1) * (Real.pi / 360) := by ring
  rw [hx]
  constructor
  · intro h
    obtain ⟨n, hn⟩ := Real.sin_eq_zero_iff.mp h
    have hn1 : (-1 : ℝ) ≤ (n : ℝ) := by
      nlinarith [mul_nonneg (by linarith : (0:ℝ) ≤ lon2 - lon1 + 360) Real.pi_pos.le]
    have hn2 : ((n : ℝ)) ≤ 1 := by
      nlinarith [mul_nonneg (by linarith : (0:ℝ) ≤ 360 - (lon2 - lon1)) Real.pi_pos.le]
    have hn1' : (-1 : ℤ) ≤ n := by exact_mod_cast hn1
    have hn2' : n ≤ (1 : ℤ) := by exact_mod_cast hn2
    interval_cases n
    · right
      left
      have hcast : ((-1 : ℤ) : ℝ) * Real.pi = -Real.pi := by push_cast; ring
      rw [hcast] at hn
      have hmul : (lon2 - lon1) * Real.pi = (-360) * Real.pi := by nlinarith [hn]
      have := mul_right_cancel₀ Real.pi_ne_zero hmul
      linarith
    · left
      have hcast : ((0 : ℤ) : ℝ) * Real.pi = 0 := by push_cast; ring
      rw [hcast] at hn
      have hmul : (lon2 - lon1) * Real.pi = 0 * Real.pi := by nlinarith [hn]
      have := mul_right_cancel₀ Real.pi_ne_zero hmul
      linarith
    · right
      right
      have hcast : ((1 : ℤ) : ℝ) * Real.pi = Real.pi := by push_cast; ring
      rw [hcast] at hn
      have hmul : (lon2 - lon1) * Real.pi = 360 * Real.pi := by nlinarith [hn]
      have := mul_right_cancel₀ Real.pi_ne_zero hmul
      linarith
  · rintro (h | h | h)
    · rw [show lon2 - lon1 = 0 by linarith]
      simp
    · rw [show lon2 - lon1 = -360 by linarith,
        show (-360 : ℝ) * (Real.pi / 360) = -Real.pi by ring, Real.sin_neg, Real.sin_pi,
        neg_zero]
    · rw [show lon2 - lon1 = 360 by linarith,
        show (360 : ℝ) * (Real.pi / 360) = Real.pi by ring, Real.sin_pi]

/-- C4 (amended): haversine is symmetric for all inputs, and over the
valid coordinate ranges it is zero exactly when the latitudes agree and
either the longitudes agree, the shared latitude is a pole (90 or -90,
where longitude is immaterial), or the longitudes differ by a full turn
of 360 degrees (-180 versus 180). -/
theorem haversine_symm_zero_iff (lat1 lon1 lat2 lon2 : ℝ)
    (h1 : -90 ≤ lat1) (h2 : lat1 ≤ 90) (h3 : -90 ≤ lat2) (h4 : lat2 ≤ 90)
    (h5 : -180 ≤ lon1) (h6 : lon1 ≤ 180) (h7 : -180 ≤ lon2) (h8 : lon2 ≤ 180) :
    haversine lat1 lon1 lat2 lon2 = haversine lat2 lon2 lat1 lon1 ∧
    (haversine lat1 lon1 lat2 lon2 = 0 ↔
      (lat1 = lat2 ∧ (lon1 = lon2 ∨ lat1 = 90 ∨ lat1 = -90 ∨
        lon1 - lon2 = 360 ∨ lon2 - lon1 = 360))) := by
  refine ⟨haversine_symm lat1 lon1 lat2 lon2, ?_⟩
  rw [haversine_eq_zero_iff_a lat1 lon1 lat2 lon2
    (haversine_a_nonneg lat1 lon1 lat2 lon2 h1 h2 h3 h4)]
  simp only [haversine_a]
  rw [add_eq_zero_iff_of_nonneg (sq_nonneg _)
    (mul_nonneg (mul_nonneg (deg_cos_nonneg lat1 h1 h2) (deg_cos_nonneg lat2 h3 h4))
      (sq_nonneg _))]
  rw [pow_eq_zero_iff two_ne_zero, sin_half_dlat_eq_zero_iff lat1 lat2 h1 h2 h3 h4]
  rw [mul_eq_zero, mul_eq_zero, pow_eq_zero_iff two_ne_zero]
  rw [cos_deg_eq_zero_iff lat1 h1 h2, cos_deg_eq_zero_iff lat2 h3 h4]
  rw [sin_half_dlon_eq_zero_iff lon1 lon2 h5 h6 h7 h8]
  constructor
  · rintro ⟨hlat, hrest⟩
    subst hlat
    exact ⟨rfl, by tauto⟩
  · rintro ⟨hlat, hrest⟩
    subst hlat
    exact ⟨rfl, by tauto⟩

theorem haversine_symm_zero_iff_witness :
    haversine 10 20 30 40 = haversine 30 40 10 20 ∧
    (haversine 10 20 30 40 = 0 ↔
      ((10 : ℝ) = 30 ∧ ((20 : ℝ) = 40 ∨ (10 : ℝ) = 90 ∨ (10 : ℝ) = -90 ∨
        (20 : ℝ) - 40 = 360 ∨ (40 : ℝ) - 20 = 360))) :=
  haversine_symm_zero_iff 10 20 30 40 (by norm_num) (by norm_num) (by norm_num)
    (by norm_num) (by norm_num) (by norm_num) (by norm_num) (by norm_num)

/-- The two ends of the antimeridian: distinct valid coordinate pairs
at haversine distance zero, refuting "zero exactly when identical". -/
theorem haversine_zero_on_antimeridian :
    haversine 0 (-180) 0 180 = 0 ∧ ¬ ((-180 : ℝ) = 180) := by
  constructor
  · have ha : haversine_a 0 (-180) 0 180 = 0 := by
      simp only [haversine_a]
      rw [show (180 * (Real.pi / 180) - -180 * (Real.pi / 180)) / 2 = Real.pi by ring,
        show (0 * (Real.pi / 180) - 0 * (Real.pi / 180)) / 2 = (0 : ℝ) by ring]
      simp [Real.sin_pi]
    simp only [haversine]
    rw [ha, Real.sqrt_zero, Real.arcsin_zero, mul_zero]
  · norm_num

theorem build_cluster_output_sorted_form_witness :
    build_cluster_output ([0, -1, 0] : List Int) [poiA, poiB, poiC] true =
      nameClusters 1
        (((List.insertionSort (fun x y => x ≤ y)
            ((([0, -1, 0] : List Int).filter (fun l => !(l == -1))).dedup)).map
            (fun k => ((([0, -1, 0] : List Int).zip [poiA, poiB, poiC]).filter
              (fun lp => lp.1 == k)).map Prod.snd))
          ++ (if (((([0, -1, 0] : List Int).zip [poiA, poiB, poiC]).filter
                (fun lp => lp.1 == -1)).map Prod.snd).isEmpty then []
              else [((([0, -1, 0] : List Int).zip [poiA, poiB, poiC]).filter
                (fun lp => lp.1 == -1)).map Prod.snd])) :=
  build_cluster_output_sorted_form [0, -1, 0] [poiA, poiB, poiC] (by simp)

/- ----------------------------------------------------------------
   The distance-threshold clusterer and its eps unit
   ---------------------------------------------------------------- -/

/-- The haversine metric as the clustering libraries compute it on
radian [lat, lng] rows: the central angle in radians on the unit
sphere (multiply by the Earth radius 6371 to get km). -/
noncomputable def sklearn_haversine (p q : ℝ × ℝ) : ℝ :=
  2 * Real.arcsin (Real.sqrt
    (Real.sin ((q.1 - p.1) / 2) ^ 2 +
      Real.cos p.1 * Real.cos q.1 * Real.sin ((q.2 - p.2) / 2) ^ 2))

/-- Modelled from the spec: the labelling contract of the external
DBSCAN library call with min_samples = 2, the code of which is not in
this repository - "groups points such that any two points in the same
group are reachable through a chain of pairwise distances each ≤
threshold, and any point with fewer than 2 neighbors within threshold
is labeled noise". d is the pairwise distance the library computes and
eps the threshold it receives. -/
def DbscanValidLabels (n : Nat) (d : Fin n → Fin n → ℝ) (eps : ℝ)
    (labels : Fin n → Int) : Prop :=
  (∀ i, (labels i = -1 ↔ ∀ j, j ≠ i → ¬ d i j ≤ eps)) ∧
  (∀ i j, labels i ≠ -1 → labels j ≠ -1 →
    (labels i = labels j ↔ Relation.ReflTransGen (fun a b => a ≠ b ∧ d a b ≤ eps) i j))

def bugPoiA : Poi := { id := "e0", name := "E0", lat := 0, lng := 0 }

noncomputable def bugPoiB : Poi := { id := "e1", name := "E1", lat := 0, lng := 1 / 10 }

noncomputable def bugPois : Fin 2 → Poi := ![bugPoiA, bugPoiB]

/-- The radian rows cluster_pois would hand the library for the two
test points. -/
noncomputable def bugCoords : Fin 2 → ℝ × ℝ :=
  ![(0, 0), (0, (1 / 10 : ℝ) * (Real.pi / 180))]

/-- The pairwise distance the DBSCAN call actually measures (radians). -/
noncomputable def bugDistCode : Fin 2 → Fin 2 → ℝ := fun i j =>
  sklearn_haversine (bugCoords i) (bugCoords j)

/-- The pairwise geodesic distance in km the claim speaks about. -/
noncomputable def bugDistKm : Fin 2 → Fin 2 → ℝ := fun i j =>
  haversine (bugPois i).lat (bugPois i).lng (bugPois j).lat (bugPois j).lng

theorem arcsin_sqrt_sin_sq (x : ℝ) (h1 : 0 ≤ x) (h2 : x ≤ Real.pi / 2) :
    Real.arcsin (Real.sqrt (Real.sin x ^ 2)) = x := by
  have hpi := Real.pi_pos
  rw [Real.sqrt_sq (Real.sin_nonneg_of_nonneg_of_le_pi h1 (by linarith))]
  exact Real.arcsin_sin (by linarith) h2

theorem sklearn_haversine_symm (p q : ℝ × ℝ) :
    sklearn_haversine p q = sklearn_haversine q p := by
  simp only [sklearn_haversine]
  rw [show q.1 - p.1 = -(p.1 - q.1) by ring, show q.2 - p.2 = -(p.2 - q.2) by ring,
    neg_div, neg_div, Real.sin_neg, Real.sin_neg]
  congr 2
  ring_nf

theorem bugDistCode_01 : bugDistCode 0 1 = Real.pi / 1800 := by
  have hpi := Real.pi_pos
  simp only [bugDistCode, bugCoords, sklearn_haversine, Matrix.cons_val_zero,
    Matrix.cons_val_one, Matrix.head_cons]
  rw [show ((0 : ℝ) - 0) / 2 = (0 : ℝ) by ring,
    show ((1 / 10 : ℝ) * (Real.pi / 180) - 0) / 2 = Real.pi / 3600 by ring]
  rw [Real.sin_zero, Real.cos_zero]
  rw [show (0 : ℝ) ^ 2 + 1 * 1 * Real.sin (Real.pi / 3600) ^ 2 =
    Real.sin (Real.pi / 3600) ^ 2 by ring]
  rw [arcsin_sqrt_sin_sq (Real.pi / 3600) (by positivity) (by linarith)]
  ring

theorem bugDistCode_10 : bugDistCode 1 0 = Real.pi / 1800 := by
  have h := sklearn_haversine_symm (bugCoords 1) (bugCoords 0)
  simp only [bugDistCode]
  rw [h]
  exact bugDistCode_01

theorem bugDistKm_01 : bugDistKm 0 1 = 6371 * Real.pi / 1800 := by
  have hpi := Real.pi_pos
  simp only [bugDistKm, bugPois, bugPoiA, bugPoiB, Matrix.cons_val_zero,
    Matrix.cons_val_one, Matrix.head_cons]
  simp only [haversine, haversine_a]
  rw [show ((0 : ℝ) * (Real.pi / 180) - 0 * (Real.pi / 180)) / 2 = (0 : ℝ) by ring,
    show ((1 / 10 : ℝ) * (Real.pi / 180) - 0 * (Real.pi / 180)) / 2 = Real.pi / 3600 by ring]
  rw [Real.sin_zero]
  rw [show (0 : ℝ) * (Real.pi / 180) = (0 : ℝ) by ring, Real.cos_zero]
  rw [show (0 : ℝ) ^ 2 + 1 * 1 * Real.sin (Real.pi / 3600) ^ 2 =
    Real.sin (Real.pi / 3600) ^ 2 by ring]
  rw [arcsin_sqrt_sin_sq (Real.pi / 3600) (by positivity) (by linarith)]
  ring

theorem bugDistKm_10 : bugDistKm 1 0 = 6371 * Real.pi / 1800 := by
  have h := haversine_symm (bugPois 1).lat (bugPois 1).lng (bugPois 0).lat (bugPois 0).lng
  simp only [bugDistKm]
  rw [h]
  exact bugDistKm_01

/-- C3: the unit slip of the distance-threshold clusterer. The code
passes eps_km / 111 = 2 / 111 (a degree figure) to DBSCAN although the
haversine metric on the radian coordinates measures central angles in
radians, so the effective radius is (2 / 111) * 6371, about 114.8 km,
not 2 km. At the failing input - two equator points 0.1 degrees, about
11.1 km, apart - any labelling meeting the DBSCAN contract at the eps
the code passes puts both points in one non-noise cluster, while the
claimed 2 km semantics forces both points to be noise; their true
geodesic separation indeed exceeds 2 km. -/
theorem dbscan_fallback_eps_bug :
    (∀ (dbsLib : ℝ → Nat → List (ℝ × ℝ) → List Int) (coords : List (ℝ × ℝ)),
      cluster_with_dbscan_fallback dbsLib coords 2 = dbsLib (2 / 111) 2 coords) ∧
    (coords_rad [bugPoiA, bugPoiB] = [bugCoords 0, bugCoords 1]) ∧
    (∀ labels : Fin 2 → Int,
      DbscanValidLabels 2 bugDistCode (2 / 111) labels →
        labels 0 ≠ -1 ∧ labels 1 ≠ -1 ∧ labels 0 = labels 1) ∧
    (∀ labels : Fin 2 → Int,
      DbscanValidLabels 2 bugDistKm 2 labels → labels 0 = -1 ∧ labels 1 = -1) ∧
    2 < bugDistKm 0 1 := by
  have hpi := Real.pi_pos
  have hle01 : bugDistCode 0 1 ≤ 2 / 111 := by
    rw [bugDistCode_01]
    nlinarith [Real.pi_lt_d2]
  have hle10 : bugDistCode 1 0 ≤ 2 / 111 := by
    rw [bugDistCode_10]
    nlinarith [Real.pi_lt_d2]
  have hkm_gt : (2 : ℝ) < 6371 * Real.pi / 1800 := by
    nlinarith [Real.pi_gt_three]
  refine ⟨fun _ _ => rfl, ?_, ?_, ?_, ?_⟩
  · simp [coords_rad, bugPoiA, bugPoiB, bugCoords]
  · rintro labels ⟨hnoise, hsame⟩
    have hl0 : labels 0 ≠ -1 := by
      intro hcon
      exact (hnoise 0).mp hcon 1 (by decide) hle01
    have hl1 : labels 1 ≠ -1 := by
      intro hcon
      exact (hnoise 1).mp hcon 0 (by decide) hle10
    refine ⟨hl0, hl1, ?_⟩
    exact (hsame 0 1 hl0 hl1).mpr
      (Relation.ReflTransGen.single ⟨by decide, hle01⟩)
  · rintro labels ⟨hnoise, -⟩
    constructor
    · apply (hnoise 0).mpr
      intro j hj
      fin_cases j
      · exact absurd rfl hj
      · show ¬ bugDistKm 0 1 ≤ 2
        rw [bugDistKm_01]
        intro hcon
        linarith
    · apply (hnoise 1).mpr
      intro j hj
      fin_cases j
      · show ¬ bugDistKm 1 0 ≤ 2
        rw [bugDistKm_10]
        intro hcon
        linarith
      · exact absurd rfl hj
  · rw [bugDistKm_01]
    exact hkm_gt

end PoiClusterEngine
